import Mathlib

/-!
# Verification of `nyteshade/simple-types` (`src/type.mjs`)

A shallow embedding of the runtime structural type-description and
verification utility.  JavaScript runtime values are modelled by `JSVal`,
format field specifiers by `Spec`, and the methods of the `Type` class
(`verify`, `classFromFormat`, the `ArrayOf` and `Optional` wrappers, the
constructor) are translated into Lean functions.  Code that can raise a
JavaScript `TypeError` is modelled in the `Except Unit` monad; `console.warn`
diagnostics are modelled as an accumulated list of structured `Warning`
values.

Modelling conventions:
* JS numbers are modelled as `Int` (the repository only uses integral
  numbers); machine floating point plays no role in any claim.
* Property access on plain data (`Reflect.has`, `object[key]`) is modelled
  on own enumerable properties: named fields of object literals and decimal
  index keys of arrays.  Properties inherited from `Object.prototype` /
  `Array.prototype` (such as `toString`) are not modelled; no claim involves
  a format key that collides with those names.
* `Object.keys` enumeration order is the insertion order of the backing
  list (the formats in the repository use no integer-like keys in plain
  objects, where JS would reorder).
-/

namespace SimpleTypes

/-- A JavaScript runtime value, as far as the verifier can observe it.
`vobj tag fields` is an object with own enumerable string-keyed `fields`;
`tag = some t` models a `Symbol.toStringTag` of `t` on its prototype (the
synthesized classes install one), `tag = none` is a plain object literal. -/
inductive JSVal where
  | vstr (s : String)
  | vnum (n : Int)
  | vbool (b : Bool)
  | vnull
  | vundefined
  | vobj (tag : Option String) (fields : List (String × JSVal))
  | varr (elems : List JSVal)

/-- A format field specifier, the values that may appear as `format[key]`:
a primitive type reference (a constructor function such as `String`,
identified by its `name`), a nested plain-object format, a literal array
specifier, an instance of the synthesized `ArrayOf` class (whose single own
property `type` may be `undefined`, modelled by `none`), or an instance of
the `Optional` wrapper class. -/
inductive Spec where
  | prim (name : String)
  | nested (fields : List (String × Spec))
  | fixedArr (elems : List Spec)
  | arrayOf (inner : Option Spec)
  | optional (inner : Spec)

/-- A `console.warn` diagnostic emitted by `Type.prototype.verify`:
either the missing-required-field message
`Format requires KEY, it is not optional and object does not have it`
or the mismatch message `KEY(EXPECTED) !== KEY(ACTUAL)` (where the expected
name is the `.name` property of the field specifier, possibly `undefined`).
-/
inductive Warning where
  | missingRequired (key : String)
  | typeMismatch (key : String) (expected : Option String) (actual : String)
deriving DecidableEq

/-- `typeof v` for a modelled runtime value. -/
def jsTypeof : JSVal → String
  | .vstr _ => "string"
  | .vnum _ => "number"
  | .vbool _ => "boolean"
  | .vnull => "object"
  | .vundefined => "undefined"
  | .vobj _ _ => "object"
  | .varr _ => "object"

/-- The `name` computed by `Type.from(v)` for a data value: the class tag
extracted from `Object.prototype.toString.call(v)` by the regex `/t (\w+)]/`.
A tagged object reports its `Symbol.toStringTag`. -/
def JSVal.fromName : JSVal → String
  | .vstr _ => "String"
  | .vnum _ => "Number"
  | .vbool _ => "Boolean"
  | .vnull => "Null"
  | .vundefined => "Undefined"
  | .vobj none _ => "Object"
  | .vobj (some tag) _ => tag
  | .varr _ => "Array"

/-- Scan of the own enumerable fields of an object for a key
(the object part of `Reflect.has`). -/
def objHas : List (String × JSVal) → String → Bool
  | [], _ => false
  | (k, _) :: rest, key => if k = key then true else objHas rest key

/-- `object[key]` on the own fields of an object (`undefined` if absent). -/
def objGet : List (String × JSVal) → String → JSVal
  | [], _ => .vundefined
  | (k, v) :: rest, key => if k = key then v else objGet rest key

/-- Array property scan: element `i` of the array answers to the decimal
string key `toString i`; `i` counts from the given start index. -/
def arrHasAux (i : Nat) : List JSVal → String → Bool
  | [], _ => false
  | _ :: rest, key => if toString i = key then true else arrHasAux (i + 1) rest key

/-- `array[key]` by decimal index key, counting from the start index `i`. -/
def arrGetAux (i : Nat) : List JSVal → String → JSVal
  | [], _ => .vundefined
  | e :: rest, key => if toString i = key then e else arrGetAux (i + 1) rest key

/-- `Reflect.has(object, key)`: throws a `TypeError` when the target is not
an object (modelled by `Except.error ()`), otherwise scans the own
enumerable properties (named fields, or decimal index keys for arrays). -/
def jsHasE : JSVal → String → Except Unit Bool
  | .vobj _ fields, key => .ok (objHas fields key)
  | .varr elems, key => .ok (arrHasAux 0 elems key)
  | _, _ => .error ()

/-- `object[key]` for an object-like target (only consulted after
`Reflect.has` succeeded). -/
def jsGet : JSVal → String → JSVal
  | .vobj _ fields, key => objGet fields key
  | .varr elems, key => arrGetAux 0 elems key
  | _, _ => .vundefined

/-- The `name` computed by `Type.from(s)` for a format field specifier.
Functions report their own `.name`; plain objects report `Object`, literal
arrays `Array`; `ArrayOf` and `Optional` instances report their
`Symbol.toStringTag`. -/
def Spec.fromName : Spec → String
  | .prim n => n
  | .nested _ => "Object"
  | .fixedArr _ => "Array"
  | .arrayOf _ => "ArrayOf"
  | .optional _ => "Optional"

/-- The `.name` property of a specifier value: defined for constructor
functions, `undefined` (`none`) for plain objects, arrays and wrapper
instances. -/
def Spec.nameProp : Spec → Option String
  | .prim n => some n
  | _ => none

/-- `typeof fType === 'object'` for a specifier: true for everything except
constructor functions. -/
def Spec.typeofIsObject : Spec → Bool
  | .prim _ => false
  | _ => true

/-- Scan of a plain-object format for a key (`format[key]`). -/
def fmtGet : List (String × Spec) → String → Option Spec
  | [], _ => none
  | (k, s) :: rest, key => if k = key then some s else fmtGet rest key

/-- The `.type` property of a specifier value, read by
`optType`: `Optional` and `ArrayOf` instances carry one as an own property;
a plain-object format may carry a field literally named `type`; constructor
functions and literal arrays have none (`undefined`). -/
def Spec.typeField : Spec → Option Spec
  | .prim _ => none
  | .nested fs => fmtGet fs "type"
  | .fixedArr _ => none
  | .arrayOf t => t
  | .optional t => some t

/-- `isOpt` of `verify`: `Type.from(type).name === Type.Optional.name`. -/
def specIsOptName (s : Spec) : Bool := s.fromName = "Optional"

/-- `optType` of `verify`: unwrap one `Optional` layer (reading the `.type`
property) when `isOpt` holds, else pass the specifier through.  Applied to
`undefined` (`none`) it stays `undefined`. -/
def optUnwrap : Option Spec → Option Spec
  | none => none
  | some s => if specIsOptName s then s.typeField else some s

/-- `Object.keys` of a literal array specifier starting at index `i`:
its decimal index keys in ascending order. -/
def arrKeysAux (i : Nat) : List Spec → List String
  | [] => []
  | _ :: rest => toString i :: arrKeysAux (i + 1) rest

/-- Lookup in a literal array specifier by decimal index key,
counting from `i`. -/
def specArrGetAux (i : Nat) : List Spec → String → Option Spec
  | [], _ => none
  | s :: rest, key => if toString i = key then some s else specArrGetAux (i + 1) rest key

/-- `Object.keys(format)`: own enumerable keys of the value used as a
format.  A plain object lists its field names, a literal array its index
keys; `ArrayOf` and `Optional` instances expose their single own property
`type`; a constructor function has no enumerable own properties. -/
def specKeys : Spec → List String
  | .prim _ => []
  | .nested fs => fs.map Prod.fst
  | .fixedArr es => arrKeysAux 0 es
  | .arrayOf _ => ["type"]
  | .optional _ => ["type"]

/-- `format[key]` on the value used as a format (`none` is `undefined`). -/
def specGet : Spec → String → Option Spec
  | .prim _, _ => none
  | .nested fs, key => fmtGet fs key
  | .fixedArr es, key => specArrGetAux 0 es key
  | .arrayOf t, key => if key = "type" then t else none
  | .optional t, key => if key = "type" then some t else none

/-- Outcome of the per-key body of `verify` before any recursive call:
a thrown `TypeError`, a settled boolean with its warnings, or a recursive
`this.verify(object[key], fType, allowDuckTyping)` call on the field value.
-/
inductive FieldStep where
  | tyError
  | done (b : Bool) (ws : List Warning)
  | recurse (v : JSVal) (ft : Spec)

/-- `isOpt(format[key])` on the raw field entry: `Type.from(undefined)`
names `Undefined`, so an undefined entry is not optional. -/
def isOptName0 : Option Spec → Bool
  | some s => specIsOptName s
  | none => false

/-- The body of the `Object.keys(format).every(key => ...)` callback in
`verify`, up to (but not performing) the recursive call.  In source order:
`fType = optType(format[key])` and `fMeta = {name: fType.name, ...}` (which
throws when `fType` is `undefined`); the `Optional`-and-absent early pass;
the missing-required failure (with its warning); `oMeta = Type.from(object[key])`;
the recursion guard for object/array values against object-typed
specifiers; and finally the name comparison `fMeta.name === oMeta.name`
(with its warning on mismatch).  `Reflect.has` throws for non-object
targets. -/
def fieldStep (o : JSVal) (fType0 : Option Spec) (key : String) : FieldStep :=
  let isOpt0 : Bool := isOptName0 fType0
  match optUnwrap fType0 with
  | none => .tyError
  | some ft =>
    match jsHasE o key with
    | .error _ => .tyError
    | .ok hasKey =>
      if isOpt0 ∧ hasKey = false then .done true []
      else if hasKey = false then .done false [.missingRequired key]
      else
        let v := jsGet o key
        if (v.fromName = "Object" ∨ v.fromName = "Array") ∧ ft.typeofIsObject then
          .recurse v ft
        else if ft.nameProp = some v.fromName then .done true []
        else .done false [.typeMismatch key ft.nameProp v.fromName]

/-- The per-key body, written out for the case in which the unwrap and the
`Reflect.has` test are known to succeed. -/
theorem fieldStep_char {o : JSVal} {fType0 : Option Spec} {key : String}
    {ft : Spec} {b : Bool} (hu : optUnwrap fType0 = some ft)
    (hb : jsHasE o key = .ok b) :
    fieldStep o fType0 key =
      if isOptName0 fType0 = true ∧ b = false then .done true []
      else if b = false then .done false [.missingRequired key]
      else if ((jsGet o key).fromName = "Object" ∨ (jsGet o key).fromName = "Array")
          ∧ (Spec.typeofIsObject ft) then .recurse (jsGet o key) ft
      else if ft.nameProp = some (jsGet o key).fromName then .done true []
      else .done false [.typeMismatch key ft.nameProp (jsGet o key).fromName] := by
  unfold fieldStep
  rw [hu, hb]

theorem fmtGet_sizeOf {fs : List (String × Spec)} {key : String} {s : Spec}
    (h : fmtGet fs key = some s) : sizeOf s < sizeOf fs := by
  induction fs with
  | nil => simp [fmtGet] at h
  | cons p rest ih =>
    obtain ⟨k, s'⟩ := p
    simp only [fmtGet] at h
    split at h
    · cases h
      simp only [List.cons.sizeOf_spec, Prod.mk.sizeOf_spec]
      omega
    · have := ih h
      simp only [List.cons.sizeOf_spec]
      omega

theorem specArrGet_sizeOf {es : List Spec} {i : Nat} {key : String} {s : Spec}
    (h : specArrGetAux i es key = some s) : sizeOf s < sizeOf es := by
  induction es generalizing i with
  | nil => simp [specArrGetAux] at h
  | cons e rest ih =>
    simp only [specArrGetAux] at h
    split at h
    · cases h
      simp only [List.cons.sizeOf_spec]
      omega
    · have := ih h
      simp only [List.cons.sizeOf_spec]
      omega

/-- Whatever `format[key]` yields is structurally smaller than the format. -/
theorem specGet_sizeOf {f : Spec} {key : String} {s : Spec}
    (h : specGet f key = some s) : sizeOf s < sizeOf f := by
  cases f with
  | prim n => simp [specGet] at h
  | nested fs =>
    have := fmtGet_sizeOf h
    simp only [Spec.nested.sizeOf_spec]
    omega
  | fixedArr es =>
    have := specArrGet_sizeOf h
    simp only [Spec.fixedArr.sizeOf_spec]
    omega
  | arrayOf t =>
    simp only [specGet] at h
    split at h
    · cases t with
      | none => simp at h
      | some t' =>
        cases h
        simp only [Spec.arrayOf.sizeOf_spec, Option.some.sizeOf_spec]
        omega
    · cases h
  | optional t =>
    simp only [specGet] at h
    split at h
    · cases h
      simp only [Spec.optional.sizeOf_spec]
      omega
    · cases h

/-- Unwrapping the `Optional` layer does not grow the specifier. -/
theorem optUnwrap_sizeOf {s ft : Spec} (h : optUnwrap (some s) = some ft) :
    sizeOf ft ≤ sizeOf s := by
  simp only [optUnwrap] at h
  split at h
  · cases s with
    | prim n => simp [Spec.typeField] at h
    | nested fs =>
      have := fmtGet_sizeOf h
      simp only [Spec.nested.sizeOf_spec]
      omega
    | fixedArr es => simp [Spec.typeField] at h
    | arrayOf t =>
      cases t with
      | none => simp [Spec.typeField] at h
      | some t' =>
        simp only [Spec.typeField] at h
        cases h
        simp only [Spec.arrayOf.sizeOf_spec, Option.some.sizeOf_spec]
        omega
    | optional t =>
      simp only [Spec.typeField] at h
      cases h
      simp only [Spec.optional.sizeOf_spec]
      omega
  · cases h
    exact Nat.le_refl _

/-- When the per-key body decides to recurse, the new format is a strict
structural subterm of the old one. -/
theorem fieldStep_recurse_sizeOf {o : JSVal} {f : Spec} {key : String}
    {v : JSVal} {ft : Spec}
    (h : fieldStep o (specGet f key) key = .recurse v ft) :
    sizeOf ft < sizeOf f := by
  unfold fieldStep at h
  rcases hg : specGet f key with _ | s
  · rw [hg] at h
    simp [optUnwrap] at h
  · rw [hg] at h
    rcases hu : optUnwrap (some s) with _ | ft'
    · rw [hu] at h
      simp at h
    · rw [hu] at h
      simp only at h
      have hfs : sizeOf s < sizeOf f := specGet_sizeOf hg
      have hus : sizeOf ft' ≤ sizeOf s := optUnwrap_sizeOf hu
      rcases he : jsHasE o key with e | hk
      · rw [he] at h
        simp at h
      · rw [he] at h
        simp only at h
        split at h
        · cases h
        · split at h
          · cases h
          · split at h
            · cases h
              omega
            · split at h <;> cases h

/-- Appending the warnings of a passed field in front of a later result and
short-circuiting on failure: the combinator underlying
`Object.keys(format).every`, with `console.warn` output threaded through. -/
def seqAnd (x y : Except Unit (Bool × List Warning)) :
    Except Unit (Bool × List Warning) :=
  match x with
  | .error e => .error e
  | .ok (false, ws) => .ok (false, ws)
  | .ok (true, ws) =>
    match y with
    | .error e => .error e
    | .ok (b, ws2) => .ok (b, ws ++ ws2)

/-- `new Type.ArrayOf(arg)`: the constructor of the class synthesized from
the format `{type: Function}`.  A single object-typeof argument is used as
the keyed value source (so the new marker copies the `.type` property of
the argument); a literal array argument is positional, so is a function
argument (the argument list itself is then the positional array), making
the argument itself the `type` value. -/
def ArrayOfNew : Spec → Spec
  | .prim n => .arrayOf (some (.prim n))
  | .nested fs => .arrayOf (fmtGet fs "type")
  | .fixedArr es => .arrayOf (match es with | [] => none | e :: _ => some e)
  | .arrayOf t => .arrayOf t
  | .optional t => .arrayOf (some t)

/-- `Type.optional(t)` / `new Type.Optional(t)`: wrap a specifier so the
verifier treats the key as optional. -/
def OptionalNew (t : Spec) : Spec := .optional t

/-- Keyed assignment pass of the synthesized constructor: every format key
becomes an own property of the instance, valued by the same-named property
of the supplied object (`undefined` when absent). -/
def keyedFields (keys : List String) (src : List (String × JSVal)) :
    List (String × JSVal) :=
  keys.map fun k => (k, objGet src k)

/-- Positional assignment pass of the synthesized constructor: the i-th
format key receives the i-th supplied value, `undefined` once the values
run out. -/
def positionalFields : List String → List JSVal → List (String × JSVal)
  | [], _ => []
  | k :: ks, [] => (k, .vundefined) :: positionalFields ks []
  | k :: ks, a :: as => (k, a) :: positionalFields ks as

/-- The constructor of the class synthesized by
`Type.classFromFormat(typeName, format)`.  `values` is the first argument
when its `typeof` is `object` (which includes `null` and arrays), else the
argument list itself; an array-valued `values` is turned into keyed values
positionally; reading properties of a `null` `values` throws unless the
format has no keys.  The instance carries the type name as its class tag
and one own property per format key. -/
def classCtor (typeName : String) (format : List (String × Spec))
    (args : List JSVal) : Except Unit JSVal :=
  let keys := format.map Prod.fst
  match args with
  | JSVal.vobj _ src :: _ => .ok (.vobj (some typeName) (keyedFields keys src))
  | JSVal.varr es :: _ => .ok (.vobj (some typeName) (positionalFields keys es))
  | JSVal.vnull :: _ =>
    match keys with
    | [] => .ok (.vobj (some typeName) [])
    | _ :: _ => .error ()
  | _ => .ok (.vobj (some typeName) (positionalFields keys args))

/-- A heap of format objects, modelling JavaScript object identity for
mutable format literals: a reference is an index, dereferencing yields the
current field list. -/
def FormatHeap : Type := Nat → List (String × Spec)

/-- Overwrite the format object behind reference `r` (a caller mutating its
format literal in place). -/
def heapUpdate (h : FormatHeap) (r : Nat) (f : List (String × Spec)) :
    FormatHeap :=
  fun x => if x = r then f else h x

/-- The state of a `Type` instance after `new Type(typeName, format)`:
`this.typeName = typeName`; `this.format = format` stores the *reference*
to the caller format object; `classFromFormat` additionally snapshots
`{...format}` (a shallow copy, by value) into the synthesized class
`FORMAT` metadata. -/
structure TypeDescriptor where
  typeName : String
  formatRef : Nat
  typeFormatMeta : List (String × Spec)

/-- `new Type(typeName, format)` against heap `h`, where `r` is the
reference of the caller format object. -/
def typeNew (h : FormatHeap) (name : String) (r : Nat) : TypeDescriptor :=
  { typeName := name, formatRef := r, typeFormatMeta := h r }

/-- Reading `descriptor.format` under the current heap: dereference the
stored format reference. -/
def descriptorFormat (h : FormatHeap) (d : TypeDescriptor) :
    List (String × Spec) :=
  h d.formatRef

/-- A target on which `Reflect.has` does not throw: an object or an array.
-/
def objLike : JSVal → Bool
  | .vobj _ _ => true
  | .varr _ => true
  | _ => false

/-- A format expressible in the format algebra of the data model: every
`ArrayOf` marker actually holds an inner specifier (its `type` property is
not `undefined`), and the bare `Optional` class itself (a constructor
function named `Optional`, which the verifier would try to unwrap and then
throw on) is not used as a specifier. -/
def wfB : Spec → Bool
  | .prim n => decide (n ≠ "Optional")
  | .nested [] => true
  | .nested ((_, s) :: fs) => wfB s && wfB (.nested fs)
  | .fixedArr [] => true
  | .fixedArr (s :: es) => wfB s && wfB (.fixedArr es)
  | .arrayOf none => false
  | .arrayOf (some t) => wfB t
  | .optional t => wfB t

mutual

/-- `Type.prototype.verify(object, useFormat, allowDuckTyping)`: iterate
`Object.keys(format).every(...)` over the format keys.  The
`allowDuckTyping` flag is received and forwarded to every recursive call
exactly as in the source, which never consults it. -/
def verify (o : JSVal) (f : Spec) (dt : Bool) : Except Unit (Bool × List Warning) :=
  verifyKeys o f dt (specKeys f)
termination_by (sizeOf f, (specKeys f).length + 2)

/-- The `every` loop of `verify` over the remaining format keys, with
short-circuit at the first failing key (later `console.warn` calls are then
never reached, as in `Array.prototype.every`). -/
def verifyKeys (o : JSVal) (f : Spec) (dt : Bool) (ks : List String) :
    Except Unit (Bool × List Warning) :=
  match ks with
  | [] => .ok (true, [])
  | k :: rest => seqAnd (fieldRes o f dt k) (verifyKeys o f dt rest)
termination_by (sizeOf f, ks.length + 1)

/-- The complete result of one key of the `every` callback: the per-key
body, performing the recursive `this.verify(object[key], fType,
allowDuckTyping)` call when the body asks for one. -/
def fieldRes (o : JSVal) (f : Spec) (dt : Bool) (k : String) :
    Except Unit (Bool × List Warning) :=
  match h : fieldStep o (specGet f k) k with
  | .tyError => .error ()
  | .done b ws => .ok (b, ws)
  | .recurse v ft => verify v ft dt
termination_by (sizeOf f, 0)
decreasing_by
  have := fieldStep_recurse_sizeOf h
  simp only [Prod.lex_def]
  omega

end

theorem verify_eq (o : JSVal) (f : Spec) (dt : Bool) :
    verify o f dt = verifyKeys o f dt (specKeys f) := by
  rw [verify]

theorem verifyKeys_nil (o : JSVal) (f : Spec) (dt : Bool) :
    verifyKeys o f dt [] = .ok (true, []) := by
  rw [verifyKeys]

theorem verifyKeys_cons (o : JSVal) (f : Spec) (dt : Bool) (k : String)
    (rest : List String) :
    verifyKeys o f dt (k :: rest) =
      seqAnd (fieldRes o f dt k) (verifyKeys o f dt rest) := by
  rw [verifyKeys]

theorem fieldRes_tyError {o : JSVal} {f : Spec} {k : String} (dt : Bool)
    (h : fieldStep o (specGet f k) k = .tyError) :
    fieldRes o f dt k = .error () := by
  unfold fieldRes
  split
  · rfl
  · rename_i heq
    rw [h] at heq
    cases heq
  · rename_i heq
    rw [h] at heq
    cases heq

theorem fieldRes_done {o : JSVal} {f : Spec} {k : String} {b : Bool}
    {ws : List Warning} (dt : Bool)
    (h : fieldStep o (specGet f k) k = .done b ws) :
    fieldRes o f dt k = .ok (b, ws) := by
  unfold fieldRes
  split
  · rename_i heq
    rw [h] at heq
    cases heq
  · rename_i heq
    rw [h] at heq
    cases heq
    rfl
  · rename_i heq
    rw [h] at heq
    cases heq

theorem fieldRes_recurse {o : JSVal} {f : Spec} {k : String} {v : JSVal}
    {ft : Spec} (dt : Bool)
    (h : fieldStep o (specGet f k) k = .recurse v ft) :
    fieldRes o f dt k = verify v ft dt := by
  unfold fieldRes
  split
  · rename_i heq
    rw [h] at heq
    cases heq
  · rename_i heq
    rw [h] at heq
    cases heq
  · rename_i heq
    rw [h] at heq
    cases heq
    rfl

theorem fieldRes_eval (o : JSVal) (f : Spec) (dt : Bool) (k : String) :
    fieldRes o f dt k =
      match fieldStep o (specGet f k) k with
      | .tyError => .error ()
      | .done b ws => .ok (b, ws)
      | .recurse v ft => verify v ft dt := by
  rcases h : fieldStep o (specGet f k) k with _ | ⟨b, ws⟩ | ⟨v, ft⟩
  · rw [fieldRes_tyError dt h]
  · rw [fieldRes_done dt h]
  · rw [fieldRes_recurse dt h]

theorem spec_sizeOf_pos (f : Spec) : 0 < sizeOf f := by
  cases f <;> simp_arith

theorem seqAnd_id (y : Except Unit (Bool × List Warning)) :
    seqAnd (.ok (true, [])) y = y := by
  rcases y with e | ⟨b, ws⟩ <;> simp [seqAnd]

theorem seqAnd_false (ws : List Warning) (y : Except Unit (Bool × List Warning)) :
    seqAnd (.ok (false, ws)) y = .ok (false, ws) := by
  rcases y with e | ⟨b, ws2⟩ <;> simp [seqAnd]

theorem seqAnd_error (y : Except Unit (Bool × List Warning)) :
    seqAnd (.error ()) y = .error () := by
  rcases y with e | ⟨b, ws2⟩ <;> simp [seqAnd]

/-- `fmtGet` only depends on the entries up to the first hit, so a key
found in the prefix ignores a removed entry further right. -/
theorem fmtGet_append_ne {fs₁ fs₂ : List (String × Spec)} {k key : String}
    {s : Spec} (hne : key ≠ k) :
    fmtGet (fs₁ ++ (k, s) :: fs₂) key = fmtGet (fs₁ ++ fs₂) key := by
  induction fs₁ with
  | nil =>
    simp only [List.nil_append, fmtGet]
    rw [if_neg (fun h => hne h.symm)]
  | cons p rest ih =>
    obtain ⟨k', s'⟩ := p
    simp only [List.cons_append, fmtGet, List.append_eq]
    split <;> simp [ih]

/-- Looking a key up past a prefix that does not contain it. -/
theorem fmtGet_append_not_mem {fs₁ fs₂ : List (String × Spec)} {key : String}
    (h : key ∉ fs₁.map Prod.fst) :
    fmtGet (fs₁ ++ fs₂) key = fmtGet fs₂ key := by
  induction fs₁ with
  | nil => simp
  | cons p rest ih =>
    obtain ⟨k', s'⟩ := p
    simp only [List.map_cons, List.mem_cons] at h
    push_neg at h
    simp only [List.cons_append, fmtGet, List.append_eq]
    rw [if_neg (fun hk => h.1 hk.symm), ih h.2]

/-- `fieldStep` consults the target object only through `Reflect.has` and
the property read, so two targets that agree there behave alike. -/
theorem fieldStep_ext {o₁ o₂ : JSVal} {k : String} (t : Option Spec)
    (hhas : jsHasE o₁ k = jsHasE o₂ k)
    (hget : jsHasE o₁ k = .ok true → jsGet o₁ k = jsGet o₂ k) :
    fieldStep o₁ t k = fieldStep o₂ t k := by
  unfold fieldStep
  rcases hu : optUnwrap t with _ | ft
  · rfl
  · rw [← hhas]
    rcases he : jsHasE o₁ k with e | hk
    · rfl
    · rcases hk with _ | _
      · rfl
      · have hg : jsGet o₁ k = jsGet o₂ k := hget he
        rw [hg]

theorem fieldRes_ext {o₁ o₂ : JSVal} {k : String} (f : Spec) (dt : Bool)
    (hhas : jsHasE o₁ k = jsHasE o₂ k)
    (hget : jsHasE o₁ k = .ok true → jsGet o₁ k = jsGet o₂ k) :
    fieldRes o₁ f dt k = fieldRes o₂ f dt k := by
  have hstep : fieldStep o₁ (specGet f k) k = fieldStep o₂ (specGet f k) k :=
    fieldStep_ext (specGet f k) hhas hget
  rcases h : fieldStep o₂ (specGet f k) k with _ | ⟨b, ws⟩ | ⟨v, ft⟩
  · rw [fieldRes_tyError dt (hstep.trans h), fieldRes_tyError dt h]
  · rw [fieldRes_done dt (hstep.trans h), fieldRes_done dt h]
  · rw [fieldRes_recurse dt (hstep.trans h), fieldRes_recurse dt h]

theorem verifyKeys_ext {o₁ o₂ : JSVal} (f : Spec) (dt : Bool)
    (ks : List String)
    (h : ∀ k ∈ ks, jsHasE o₁ k = jsHasE o₂ k ∧
      (jsHasE o₁ k = .ok true → jsGet o₁ k = jsGet o₂ k)) :
    verifyKeys o₁ f dt ks = verifyKeys o₂ f dt ks := by
  induction ks with
  | nil => rw [verifyKeys_nil, verifyKeys_nil]
  | cons k rest ih =>
    rw [verifyKeys_cons, verifyKeys_cons]
    have hk := h k (List.mem_cons_self k rest)
    rw [fieldRes_ext f dt hk.1 hk.2, ih (fun x hx => h x (List.mem_cons_of_mem k hx))]

/-- `fieldRes` consults the format only through `format[key]`. -/
theorem fieldRes_congr {o : JSVal} {k : String} {f f' : Spec} (dt : Bool)
    (h : specGet f k = specGet f' k) :
    fieldRes o f dt k = fieldRes o f' dt k := by
  rcases hs : fieldStep o (specGet f' k) k with _ | ⟨b, ws⟩ | ⟨v, ft⟩
  · rw [fieldRes_tyError dt (h ▸ hs), fieldRes_tyError dt hs]
  · rw [fieldRes_done dt (h ▸ hs), fieldRes_done dt hs]
  · rw [fieldRes_recurse dt (h ▸ hs), fieldRes_recurse dt hs]

theorem verifyKeys_congr {o : JSVal} {f f' : Spec} (dt : Bool)
    (ks : List String) (h : ∀ k ∈ ks, specGet f k = specGet f' k) :
    verifyKeys o f dt ks = verifyKeys o f' dt ks := by
  induction ks with
  | nil => rw [verifyKeys_nil, verifyKeys_nil]
  | cons k rest ih =>
    rw [verifyKeys_cons, verifyKeys_cons,
      fieldRes_congr dt (h k (List.mem_cons_self k rest)),
      ih (fun x hx => h x (List.mem_cons_of_mem k hx))]

/-- A key whose field check passes without warnings contributes nothing to
the `every` fold. -/
theorem verifyKeys_skip_true {o : JSVal} {f : Spec} {k : String} (dt : Bool)
    (as bs : List String) (h : fieldRes o f dt k = .ok (true, [])) :
    verifyKeys o f dt (as ++ k :: bs) = verifyKeys o f dt (as ++ bs) := by
  induction as with
  | nil =>
    simp only [List.nil_append]
    rw [verifyKeys_cons, h, seqAnd_id]
  | cons a rest ih =>
    simp only [List.cons_append]
    rw [verifyKeys_cons, verifyKeys_cons, ih]

theorem fmtGet_isSome_of_mem {fs : List (String × Spec)} {k : String}
    (h : k ∈ fs.map Prod.fst) : (fmtGet fs k).isSome := by
  induction fs with
  | nil => simp at h
  | cons p rest ih =>
    obtain ⟨k', s'⟩ := p
    simp only [fmtGet]
    split
    · rfl
    · rename_i hne
      simp only [List.map_cons, List.mem_cons] at h
      rcases h with h | h
      · exact absurd h.symm hne
      · exact ih h

theorem specArrGet_isSome_of_mem {es : List Spec} {i : Nat} {k : String}
    (h : k ∈ arrKeysAux i es) : (specArrGetAux i es k).isSome := by
  induction es generalizing i with
  | nil => simp [arrKeysAux] at h
  | cons e rest ih =>
    simp only [arrKeysAux, List.mem_cons] at h
    simp only [specArrGetAux]
    split
    · rfl
    · rename_i hne
      rcases h with h | h
      · exact absurd h.symm hne
      · exact ih h

theorem specGet_isSome_of_mem {f : Spec} {k : String} (hwf : wfB f = true)
    (h : k ∈ specKeys f) : (specGet f k).isSome := by
  cases f with
  | prim n => simp [specKeys] at h
  | nested fs => exact fmtGet_isSome_of_mem h
  | fixedArr es => exact specArrGet_isSome_of_mem h
  | arrayOf t =>
    simp only [specKeys, List.mem_singleton] at h
    subst h
    cases t with
    | none => simp [wfB] at hwf
    | some t' => simp [specGet]
  | optional t =>
    simp only [specKeys, List.mem_singleton] at h
    subst h
    simp [specGet]

theorem fmtGet_wf {fs : List (String × Spec)} {k : String} {s : Spec}
    (hwf : wfB (.nested fs) = true) (h : fmtGet fs k = some s) :
    wfB s = true := by
  induction fs with
  | nil => simp [fmtGet] at h
  | cons p rest ih =>
    obtain ⟨k', s'⟩ := p
    simp only [wfB, Bool.and_eq_true] at hwf
    simp only [fmtGet] at h
    split at h
    · cases h
      exact hwf.1
    · exact ih hwf.2 h

theorem specArrGet_wf {es : List Spec} {i : Nat} {k : String} {s : Spec}
    (hwf : wfB (.fixedArr es) = true) (h : specArrGetAux i es k = some s) :
    wfB s = true := by
  induction es generalizing i with
  | nil => simp [specArrGetAux] at h
  | cons e rest ih =>
    simp only [wfB, Bool.and_eq_true] at hwf
    simp only [specArrGetAux] at h
    split at h
    · cases h
      exact hwf.1
    · exact ih hwf.2 h

theorem specGet_wf {f : Spec} {k : String} {s : Spec} (hwf : wfB f = true)
    (h : specGet f k = some s) : wfB s = true := by
  cases f with
  | prim n => simp [specGet] at h
  | nested fs => exact fmtGet_wf hwf h
  | fixedArr es => exact specArrGet_wf hwf h
  | arrayOf t =>
    simp only [specGet] at h
    split at h
    · cases t with
      | none => simp [wfB] at hwf
      | some t' =>
        cases h
        simpa [wfB] using hwf
    · cases h
  | optional t =>
    simp only [specGet] at h
    split at h
    · cases h
      simpa [wfB] using hwf
    · cases h

/-- Under well-formedness, unwrapping the possible `Optional` layer always
yields a defined, well-formed specifier (it is only the bare `Optional`
class and `undefined`-typed `ArrayOf` markers that would make `fMeta`
throw). -/
theorem optUnwrap_wf {s : Spec} (hwf : wfB s = true) :
    ∃ t, optUnwrap (some s) = some t ∧ wfB t = true := by
  cases s with
  | prim n =>
    refine ⟨.prim n, ?_, hwf⟩
    simp only [optUnwrap, specIsOptName, Spec.fromName]
    rw [if_neg]
    simp only [wfB, decide_eq_true_eq] at hwf
    simpa using hwf
  | nested fs => exact ⟨.nested fs, by simp [optUnwrap, specIsOptName, Spec.fromName], hwf⟩
  | fixedArr es => exact ⟨.fixedArr es, by simp [optUnwrap, specIsOptName, Spec.fromName], hwf⟩
  | arrayOf t => exact ⟨.arrayOf t, by simp [optUnwrap, specIsOptName, Spec.fromName], hwf⟩
  | optional t =>
    refine ⟨t, ?_, by simpa [wfB] using hwf⟩
    simp [optUnwrap, specIsOptName, Spec.fromName, Spec.typeField]

theorem jsHasE_ok_of_objLike {o : JSVal} (k : String) (h : objLike o = true) :
    ∃ b, jsHasE o k = .ok b := by
  cases o <;> simp_all [objLike, jsHasE]

theorem objLike_of_fromName {v : JSVal}
    (h : v.fromName = "Object" ∨ v.fromName = "Array") : objLike v = true := by
  cases v <;> simp_all [JSVal.fromName, objLike]

/-- On a well-formed field specifier and an object-like target, the per-key
body never throws, and any recursion it requests is on an object-like
value against a well-formed sub-specifier. -/
theorem fieldStep_wf {o : JSVal} {s : Spec} {k : String}
    (hwf : wfB s = true) (ho : objLike o = true) :
    fieldStep o (some s) k ≠ .tyError ∧
      (∀ v ft, fieldStep o (some s) k = .recurse v ft →
        objLike v = true ∧ wfB ft = true) := by
  obtain ⟨t, hu, hwt⟩ := optUnwrap_wf hwf
  obtain ⟨b, hb⟩ := jsHasE_ok_of_objLike k ho
  rw [fieldStep_char hu hb]
  constructor
  · split_ifs <;> simp
  · intro v ft h
    split_ifs at h with h1 h2 h3
    cases h
    exact ⟨objLike_of_fromName h3.1, hwt⟩

theorem verifyKeys_noThrow :
    ∀ (n : Nat) (f : Spec), sizeOf f ≤ n → wfB f = true →
      ∀ (o : JSVal), objLike o = true → ∀ (dt : Bool) (ks : List String),
        (∀ k ∈ ks, k ∈ specKeys f) →
        ∃ r, verifyKeys o f dt ks = .ok r := by
  intro n
  induction n with
  | zero =>
    intro f hf
    exact absurd hf (by have := spec_sizeOf_pos f; omega)
  | succ n ih =>
    intro f hf hwf o ho dt ks hks
    induction ks with
    | nil => exact ⟨(true, []), verifyKeys_nil o f dt⟩
    | cons k rest ihks =>
      obtain ⟨r2, h2⟩ := ihks (fun x hx => hks x (List.mem_cons_of_mem k hx))
      have hkmem := hks k (List.mem_cons_self k rest)
      obtain ⟨s, hs⟩ := Option.isSome_iff_exists.mp (specGet_isSome_of_mem hwf hkmem)
      have hswf : wfB s = true := specGet_wf hwf hs
      have hfacts := @fieldStep_wf o s k hswf ho
      rw [← hs] at hfacts
      rcases hstep : fieldStep o (specGet f k) k with _ | ⟨b, ws⟩ | ⟨v, ft⟩
      · exact absurd hstep hfacts.1
      · rw [verifyKeys_cons, fieldRes_done dt hstep, h2]
        cases b with
        | false => exact ⟨(false, ws), by rw [seqAnd_false]⟩
        | true => exact ⟨(r2.1, ws ++ r2.2), by simp [seqAnd]⟩
      · obtain ⟨hov, hwft⟩ := hfacts.2 v ft hstep
        have hsz : sizeOf ft < sizeOf f := fieldStep_recurse_sizeOf hstep
        obtain ⟨r1, h1⟩ := ih ft (by omega) hwft v hov dt (specKeys ft) (fun x hx => hx)
        rw [verifyKeys_cons, fieldRes_recurse dt hstep, verify_eq, h1, h2]
        cases r1 with
        | mk b1 ws1 =>
          cases b1 with
          | false => exact ⟨(false, ws1), by rw [seqAnd_false]⟩
          | true => exact ⟨(r2.1, ws1 ++ r2.2), by simp [seqAnd]⟩

/-- `verify` returns a boolean (with its warnings) and never throws, as
long as the target is an object or array and the format is expressible in
the format algebra. -/
theorem verify_noThrow {f : Spec} {o : JSVal} (dt : Bool)
    (hwf : wfB f = true) (ho : objLike o = true) :
    ∃ r, verify o f dt = .ok r := by
  rw [verify_eq]
  exact verifyKeys_noThrow (sizeOf f) f (Nat.le_refl _) hwf o ho dt
    (specKeys f) (fun k hk => hk)

theorem verifyKeys_dt :
    ∀ (n : Nat) (f : Spec), sizeOf f ≤ n →
      ∀ (o : JSVal) (dt dt' : Bool) (ks : List String),
        verifyKeys o f dt ks = verifyKeys o f dt' ks := by
  intro n
  induction n with
  | zero =>
    intro f hf
    exact absurd hf (by have := spec_sizeOf_pos f; omega)
  | succ n ih =>
    intro f hf o dt dt' ks
    induction ks with
    | nil => rw [verifyKeys_nil, verifyKeys_nil]
    | cons k rest ihks =>
      rw [verifyKeys_cons, verifyKeys_cons, ihks]
      rcases hstep : fieldStep o (specGet f k) k with _ | ⟨b, ws⟩ | ⟨v, ft⟩
      · rw [fieldRes_tyError dt hstep, fieldRes_tyError dt' hstep]
      · rw [fieldRes_done dt hstep, fieldRes_done dt' hstep]
      · rw [fieldRes_recurse dt hstep, fieldRes_recurse dt' hstep]
        have hsz : sizeOf ft < sizeOf f := fieldStep_recurse_sizeOf hstep
        rw [verify_eq, verify_eq, ih ft (by omega) v dt dt']

/-- The boolean outcome and warnings of `verify` do not depend on the
`allowDuckTyping` argument. -/
theorem verify_dt (o : JSVal) (f : Spec) (dt dt' : Bool) :
    verify o f dt = verify o f dt' := by
  rw [verify_eq, verify_eq]
  exact verifyKeys_dt (sizeOf f) f (Nat.le_refl _) o dt dt' (specKeys f)

/-- If the `every` fold over `ks` succeeds with `true`, every key in `ks`
had a passing field check. -/
theorem verifyKeys_ok_true_mem {o : JSVal} {f : Spec} {dt : Bool}
    {ks : List String} {ws : List Warning} {k : String}
    (h : verifyKeys o f dt ks = .ok (true, ws)) (hk : k ∈ ks) :
    ∃ ws', fieldRes o f dt k = .ok (true, ws') := by
  induction ks generalizing ws with
  | nil => simp at hk
  | cons k' rest ih =>
    rw [verifyKeys_cons] at h
    rcases hfr : fieldRes o f dt k' with e | ⟨b, ws1⟩
    · rw [hfr, seqAnd_error] at h
      cases h
    · cases b with
      | false =>
        rw [hfr, seqAnd_false] at h
        cases h
      | true =>
        rcases List.mem_cons.mp hk with hk' | hk'
        · exact hk' ▸ ⟨ws1, hfr⟩
        · rw [hfr] at h
          rcases hrest : verifyKeys o f dt rest with e | ⟨b2, ws2⟩
          · rw [hrest] at h
            simp [seqAnd] at h
          · rw [hrest] at h
            simp only [seqAnd] at h
            cases b2 with
            | false => simp at h
            | true => exact ih hrest hk'

theorem fmtGet_mem {fs : List (String × Spec)} {k : String} {s : Spec}
    (h : fmtGet fs k = some s) : (k, s) ∈ fs := by
  induction fs with
  | nil => simp [fmtGet] at h
  | cons p rest ih =>
    obtain ⟨k', s'⟩ := p
    simp only [fmtGet] at h
    split at h
    · rename_i hkk
      cases h
      subst hkk
      exact List.mem_cons_self _ _
    · exact List.mem_cons_of_mem _ (ih h)

theorem objHas_false_objGet {src : List (String × JSVal)} {k : String}
    (h : objHas src k = false) : objGet src k = .vundefined := by
  induction src with
  | nil => rfl
  | cons p rest ih =>
    obtain ⟨k', v'⟩ := p
    simp only [objHas] at h
    simp only [objGet]
    split at h
    · cases h
    · rename_i hne
      rw [if_neg hne]
      exact ih h

theorem keyedFields_map_fst (keys : List String) (src : List (String × JSVal)) :
    (keyedFields keys src).map Prod.fst = keys := by
  induction keys with
  | nil => rfl
  | cons k rest ih =>
    simp only [keyedFields, List.map_cons] at ih ⊢
    rw [ih]

theorem objGet_keyedFields {keys : List String} {k : String}
    (src : List (String × JSVal)) (h : k ∈ keys) :
    objGet (keyedFields keys src) k = objGet src k := by
  induction keys with
  | nil => simp at h
  | cons k' rest ih =>
    simp only [keyedFields, List.map_cons, objGet]
    split
    · rename_i hk'
      rw [hk']
    · rename_i hne
      rcases List.mem_cons.mp h with hk | hk
      · exact absurd hk.symm hne
      · exact ih hk

theorem positionalFields_map_fst (keys : List String) (args : List JSVal) :
    (positionalFields keys args).map Prod.fst = keys := by
  induction keys generalizing args with
  | nil => cases args <;> rfl
  | cons k rest ih =>
    cases args with
    | nil => simp [positionalFields, ih]
    | cons a as => simp [positionalFields, ih]

theorem positionalFields_nil_args (keys : List String) :
    positionalFields keys [] = keys.map (fun k => (k, JSVal.vundefined)) := by
  induction keys with
  | nil => rfl
  | cons k rest ih => simp [positionalFields, ih]

theorem objGet_map_undef {keys : List String} {k : String} (h : k ∈ keys) :
    objGet (keys.map (fun x => (x, JSVal.vundefined))) k = .vundefined := by
  induction keys with
  | nil => simp at h
  | cons k' rest ih =>
    simp only [List.map_cons, objGet]
    split
    · rfl
    · rename_i hne
      rcases List.mem_cons.mp h with hk | hk
      · exact absurd hk.symm hne
      · exact ih hk

/-- Positional construction with fewer values than keys: every key past
the supplied values is assigned `undefined`. -/
theorem objGet_positional_drop {keys : List String} {args : List JSVal}
    {k : String} (hnd : keys.Nodup) (h : k ∈ keys.drop args.length) :
    objGet (positionalFields keys args) k = .vundefined := by
  induction keys generalizing args with
  | nil => simp at h
  | cons k' rest ih =>
    cases args with
    | nil =>
      rw [positionalFields_nil_args]
      exact objGet_map_undef (by simpa using h)
    | cons a as =>
      simp only [List.length_cons, List.drop_succ_cons] at h
      have hmem : k ∈ rest := List.mem_of_mem_drop h
      have hne : k' ≠ k := by
        intro he
        exact (List.nodup_cons.mp hnd).1 (he ▸ hmem)
      simp only [positionalFields, objGet]
      rw [if_neg hne]
      exact ih (List.nodup_cons.mp hnd).2 h

theorem objHas_keyedFields {keys : List String} {k : String}
    (src : List (String × JSVal)) (h : k ∈ keys) :
    objHas (keyedFields keys src) k = true := by
  induction keys with
  | nil => simp at h
  | cons k' rest ih =>
    simp only [keyedFields, List.map_cons, objHas]
    split
    · rfl
    · rename_i hne
      rcases List.mem_cons.mp h with hk | hk
      · exact absurd hk.symm hne
      · exact ih hk

/-- C1: the format `{names: new Type.ArrayOf(String)}` of the repository
test suite, evaluated by the code on the test value
`{names: ['Alice', 'Bob', 'Charlie']}` and on an empty-array value.  The
verifier recurses with the `ArrayOf` instance as the format, so it looks
up its only key `type` on the candidate array, which has no such property:
the result is `false` with a missing-required-`type` warning in both cases
(the test and the spec demand `true`). -/
theorem c1_arrayOf_eval :
    verify
      (JSVal.vobj none [("names", JSVal.varr
        [JSVal.vstr "Alice", JSVal.vstr "Bob", JSVal.vstr "Charlie"])])
      (Spec.nested [("names", ArrayOfNew (Spec.prim "String"))]) true =
      .ok (false, [Warning.missingRequired "type"]) ∧
    verify (JSVal.vobj none [("names", JSVal.varr [])])
      (Spec.nested [("names", ArrayOfNew (Spec.prim "String"))]) true =
      .ok (false, [Warning.missingRequired "type"]) := by
  constructor
  · rw [verify_eq]
    show verifyKeys _ _ _ ["names"] = _
    rw [verifyKeys_cons, verifyKeys_nil, fieldRes_eval]
    show seqAnd (verify (JSVal.varr
      [JSVal.vstr "Alice", JSVal.vstr "Bob", JSVal.vstr "Charlie"])
      (Spec.arrayOf (some (Spec.prim "String"))) true) (Except.ok (true, [])) = _
    rw [verify_eq]
    show seqAnd (verifyKeys _ _ _ ["type"]) _ = _
    rw [verifyKeys_cons, verifyKeys_nil, fieldRes_eval]
    rfl
  · rw [verify_eq]
    show verifyKeys _ _ _ ["names"] = _
    rw [verifyKeys_cons, verifyKeys_nil, fieldRes_eval]
    show seqAnd (verify (JSVal.varr [])
      (Spec.arrayOf (some (Spec.prim "String"))) true) (Except.ok (true, [])) = _
    rw [verify_eq]
    show seqAnd (verifyKeys _ _ _ ["type"]) _ = _
    rw [verifyKeys_cons, verifyKeys_nil, fieldRes_eval]
    rfl

/-- C2: fixed-length array verification as the code actually behaves.  The
recursion treats the literal specifier `[String]` as a format whose only
key is the index `0`, and never compares lengths, so both
`{names: ['Alice']}` and the over-long `{names: ['Alice', 'Bob']}` verify
`true` (the test and the spec demand `false` for the second). -/
theorem c2_fixedArr_eval :
    verify (JSVal.vobj none [("names", JSVal.varr [JSVal.vstr "Alice"])])
      (Spec.nested [("names", Spec.fixedArr [Spec.prim "String"])]) true =
      .ok (true, []) ∧
    verify (JSVal.vobj none [("names", JSVal.varr
        [JSVal.vstr "Alice", JSVal.vstr "Bob"])])
      (Spec.nested [("names", Spec.fixedArr [Spec.prim "String"])]) true =
      .ok (true, []) := by
  constructor
  · rw [verify_eq]
    show verifyKeys _ _ _ ["names"] = _
    rw [verifyKeys_cons, verifyKeys_nil, fieldRes_eval]
    show seqAnd (verify (JSVal.varr [JSVal.vstr "Alice"])
      (Spec.fixedArr [Spec.prim "String"]) true) (Except.ok (true, [])) = _
    rw [verify_eq]
    show seqAnd (verifyKeys _ _ _ ["0"]) _ = _
    rw [verifyKeys_cons, verifyKeys_nil, fieldRes_eval]
    rfl
  · rw [verify_eq]
    show verifyKeys _ _ _ ["names"] = _
    rw [verifyKeys_cons, verifyKeys_nil, fieldRes_eval]
    show seqAnd (verify (JSVal.varr [JSVal.vstr "Alice", JSVal.vstr "Bob"])
      (Spec.fixedArr [Spec.prim "String"]) true) (Except.ok (true, [])) = _
    rw [verify_eq]
    show seqAnd (verifyKeys _ _ _ ["0"]) _ = _
    rw [verifyKeys_cons, verifyKeys_nil, fieldRes_eval]
    rfl

/-- C3 (refuted as stated): on the target `null` with the format
`{name: String}`, `verify` does throw (`Reflect.has(null, 'name')` raises a
`TypeError`), so it is not the case that every target value yields a
boolean. -/
theorem c3_counterexample :
    verify JSVal.vnull (Spec.nested [("name", Spec.prim "String")]) true =
      .error () := by
  rw [verify_eq]
  show verifyKeys _ _ _ ["name"] = _
  rw [verifyKeys_cons, verifyKeys_nil, fieldRes_eval]
  rfl

/-- C3 (amended): `verify` never throws, returning a boolean plus its
warning diagnostics, provided the target is an object or an array and the
format is expressible in the format algebra (`wfB`); targets such as
`null`, `undefined` and primitives make `Reflect.has` throw as soon as the
format has a key. -/
theorem c3_verify_noThrow (o : JSVal) (f : Spec) (dt : Bool)
    (ho : objLike o = true) (hwf : wfB f = true) :
    ∃ r, verify o f dt = .ok r :=
  verify_noThrow dt hwf ho

theorem c3_witness :
    objLike (JSVal.vobj none [("name", JSVal.vnum 3)]) = true ∧
    wfB (Spec.nested [("name", Spec.prim "String")]) = true ∧
    ∃ r, verify (JSVal.vobj none [("name", JSVal.vnum 3)])
      (Spec.nested [("name", Spec.prim "String")]) true = .ok r :=
  ⟨rfl, by simp [wfB],
    c3_verify_noThrow (JSVal.vobj none [("name", JSVal.vnum 3)])
      (Spec.nested [("name", Spec.prim "String")]) true rfl (by simp [wfB])⟩

/-- C8 (refuted as stated): `new Type(typeName, format)` stores the format
by reference (`this.format = format`), so mutating the caller format
object (here: adding a key `extra`) is observed through
`descriptor.format`; the descriptor does not hold a shallow copy. -/
theorem c8_counterexample :
    descriptorFormat
      (heapUpdate (fun _ => [("name", Spec.prim "String")]) 0
        [("name", Spec.prim "String"), ("extra", Spec.prim "Number")])
      (typeNew (fun _ => [("name", Spec.prim "String")]) "Person" 0) =
      [("name", Spec.prim "String"), ("extra", Spec.prim "Number")] ∧
    [("name", Spec.prim "String"), ("extra", Spec.prim "Number")] ≠
      (fun _ => [("name", Spec.prim "String")] : FormatHeap) 0 := by
  constructor
  · rfl
  · intro h
    exact absurd (congrArg List.length h) (by decide)

/-- C8 (amended): the descriptor aliases the caller format object, so a
later in-place mutation of that object is observed through
`descriptor.format`; only the hidden `FORMAT` metadata of the synthesized
class receives a shallow copy (`{...format}`) at construction time, which
the mutation leaves unchanged. -/
theorem c8_descriptor_aliases_format (h : FormatHeap) (name : String)
    (r : Nat) (f2 : List (String × Spec)) :
    descriptorFormat (heapUpdate h r f2) (typeNew h name r) = f2 ∧
      (typeNew h name r).typeFormatMeta = h r := by
  constructor
  · simp [descriptorFormat, heapUpdate, typeNew]
  · rfl

/-- C9: the `allowDuckTyping` parameter of `verify` is forwarded but never
consulted, so the outcome (boolean, warnings, or thrown error) with any
flag value equals the outcome with any other. -/
theorem c9_duckTyping_inert (o : JSVal) (f : Spec) (b₁ b₂ : Bool) :
    verify o f b₁ = verify o f b₂ :=
  verify_dt o f b₁ b₂

/-- C10: verification consults the target only through `Reflect.has` and
property reads at the format keys, so two targets that agree on key
presence and on the values held at every format key receive the same
verification outcome; properties outside the format keys are ignored. -/
theorem c10_extra_fields_ignored (f : Spec) (o₁ o₂ : JSVal) (dt : Bool)
    (h : ∀ k ∈ specKeys f, jsHasE o₁ k = jsHasE o₂ k ∧
      (jsHasE o₁ k = .ok true → jsGet o₁ k = jsGet o₂ k)) :
    verify o₁ f dt = verify o₂ f dt := by
  rw [verify_eq, verify_eq]
  exact verifyKeys_ext f dt (specKeys f) h

theorem c10_witness :
    verify (JSVal.vobj none [("name", JSVal.vstr "x")])
      (Spec.nested [("name", Spec.prim "String")]) true =
    verify (JSVal.vobj none [("name", JSVal.vstr "x"), ("hobby", JSVal.vnum 4)])
      (Spec.nested [("name", Spec.prim "String")]) true := by
  apply c10_extra_fields_ignored
  intro k hk
  have hkeq : k = "name" := by
    simpa [specKeys] using hk
  subst hkeq
  exact ⟨rfl, fun _ => rfl⟩

/-- C5: a field wrapped in `Optional` contributes nothing when the key is
wholly absent (removing the field from the format leaves the verification
outcome unchanged), and when the key is present the field check is the
same as for the unwrapped specifier. -/
theorem c5_optional_fields (T : Spec) (k : String) (o : JSVal) (dt : Bool)
    (fs₁ fs₂ : List (String × Spec)) :
    (jsHasE o k = .ok false → k ∉ fs₁.map Prod.fst → k ∉ fs₂.map Prod.fst →
      verify o (Spec.nested (fs₁ ++ (k, Spec.optional T) :: fs₂)) dt =
        verify o (Spec.nested (fs₁ ++ fs₂)) dt) ∧
    (jsHasE o k = .ok true → specIsOptName T = false →
      fieldStep o (some (Spec.optional T)) k = fieldStep o (some T) k) := by
  constructor
  · intro hhas h1 h2
    rw [verify_eq, verify_eq]
    have hk1 : specKeys (Spec.nested (fs₁ ++ (k, Spec.optional T) :: fs₂)) =
        fs₁.map Prod.fst ++ k :: fs₂.map Prod.fst := by
      simp [specKeys]
    have hk2 : specKeys (Spec.nested (fs₁ ++ fs₂)) =
        fs₁.map Prod.fst ++ fs₂.map Prod.fst := by
      simp [specKeys]
    rw [hk1, hk2]
    have hget : specGet (Spec.nested (fs₁ ++ (k, Spec.optional T) :: fs₂)) k =
        some (Spec.optional T) := by
      show fmtGet _ _ = _
      rw [fmtGet_append_not_mem h1]
      simp [fmtGet]
    have hu : optUnwrap (some (Spec.optional T)) = some T := by
      simp [optUnwrap, specIsOptName, Spec.fromName, Spec.typeField]
    have hstep : fieldStep o
        (specGet (Spec.nested (fs₁ ++ (k, Spec.optional T) :: fs₂)) k) k =
        .done true [] := by
      rw [hget, fieldStep_char hu hhas]
      simp [isOptName0, specIsOptName, Spec.fromName]
    rw [verifyKeys_skip_true dt _ _ (fieldRes_done dt hstep)]
    apply verifyKeys_congr
    intro x hx
    have hxk : x ≠ k := by
      rcases List.mem_append.mp hx with hxx | hxx
      · exact fun he => h1 (he ▸ hxx)
      · exact fun he => h2 (he ▸ hxx)
    show fmtGet _ _ = fmtGet _ _
    exact fmtGet_append_ne hxk
  · intro hhas hT
    have hu1 : optUnwrap (some (Spec.optional T)) = some T := by
      simp [optUnwrap, specIsOptName, Spec.fromName, Spec.typeField]
    have hu2 : optUnwrap (some T) = some T := by
      simp only [optUnwrap]
      rw [if_neg (by simp [hT])]
    rw [fieldStep_char hu1 hhas, fieldStep_char hu2 hhas]
    simp [isOptName0, hT]

theorem c5_witness :
    (verify (JSVal.vobj none [])
      (Spec.nested [("name", Spec.optional (Spec.prim "String"))]) true =
      verify (JSVal.vobj none []) (Spec.nested []) true) ∧
    (fieldStep (JSVal.vobj none [("name", JSVal.vstr "x")])
      (some (Spec.optional (Spec.prim "String"))) "name" =
      fieldStep (JSVal.vobj none [("name", JSVal.vstr "x")])
        (some (Spec.prim "String")) "name") := by
  constructor
  · exact (c5_optional_fields (Spec.prim "String") "name" (JSVal.vobj none [])
      true [] []).1 rfl (by simp) (by simp)
  · exact (c5_optional_fields (Spec.prim "String") "name"
      (JSVal.vobj none [("name", JSVal.vstr "x")]) true [] []).2 rfl rfl

/-- C6 (amended): on a format with no `Optional` fields, an object-like
target lacking one of the format keys always verifies `false`; the
missing-required-field diagnostic is emitted whenever the missing key is
the first format key (the `every` fold stops at the first failing field,
so an earlier failing field can suppress the diagnostic of a later missing
one). -/
theorem c6_missing_required (fs : List (String × Spec)) (o : JSVal)
    (dt : Bool) (k : String) :
    (wfB (Spec.nested fs) = true → objLike o = true →
      (∀ p ∈ fs, specIsOptName p.2 = false) →
      k ∈ fs.map Prod.fst → jsHasE o k = .ok false →
      ∃ ws, verify o (Spec.nested fs) dt = .ok (false, ws)) ∧
    (∀ s₀ rest, fs = (k, s₀) :: rest → specIsOptName s₀ = false →
      jsHasE o k = .ok false →
      verify o (Spec.nested fs) dt =
        .ok (false, [Warning.missingRequired k])) := by
  constructor
  · intro hwf ho hno hk hhas
    obtain ⟨⟨b, ws⟩, hr⟩ := verify_noThrow dt hwf ho
    cases b with
    | false => exact ⟨ws, hr⟩
    | true =>
      exfalso
      rw [verify_eq] at hr
      obtain ⟨ws', hws'⟩ := verifyKeys_ok_true_mem hr hk
      obtain ⟨s, hs⟩ := Option.isSome_iff_exists.mp (fmtGet_isSome_of_mem hk)
      have hopt : specIsOptName s = false := hno (k, s) (fmtGet_mem hs)
      have hu : optUnwrap (some s) = some s := by
        simp only [optUnwrap]
        rw [if_neg (by simp [hopt])]
      have hstep : fieldStep o (specGet (Spec.nested fs) k) k =
          .done false [.missingRequired k] := by
        show fieldStep o (fmtGet fs k) k = _
        rw [hs, fieldStep_char hu hhas]
        simp [isOptName0, hopt]
      rw [fieldRes_done dt hstep] at hws'
      simp at hws'
  · intro s₀ rest hfs hs₀ hhas
    subst hfs
    rw [verify_eq]
    show verifyKeys _ _ _ (k :: rest.map Prod.fst) = _
    rw [verifyKeys_cons]
    have hu : optUnwrap (some s₀) = some s₀ := by
      simp only [optUnwrap]
      rw [if_neg (by simp [hs₀])]
    have hstep : fieldStep o
        (specGet (Spec.nested ((k, s₀) :: rest)) k) k =
        .done false [.missingRequired k] := by
      show fieldStep o (fmtGet ((k, s₀) :: rest) k) k = _
      rw [show fmtGet ((k, s₀) :: rest) k = some s₀ from by simp [fmtGet]]
      rw [fieldStep_char hu hhas]
      simp [isOptName0, hs₀]
    rw [fieldRes_done dt hstep, seqAnd_false]

theorem c6_witness :
    (∃ ws, verify (JSVal.vobj none [])
      (Spec.nested [("name", Spec.prim "String")]) true = .ok (false, ws)) ∧
    verify (JSVal.vobj none [])
      (Spec.nested [("name", Spec.prim "String")]) true =
      .ok (false, [Warning.missingRequired "name"]) := by
  have h := c6_missing_required [("name", Spec.prim "String")]
    (JSVal.vobj none []) true "name"
  constructor
  · exact h.1 (by simp [wfB]) rfl
      (by intro p hp
          simp only [List.mem_singleton] at hp
          subst hp
          rfl)
      (by simp) rfl
  · exact h.2 (Spec.prim "String") [] rfl rfl rfl

/-- C6 (refuted as stated): the diagnostic for a missing required field is
not always emitted.  With format `{a: Number, b: String}` and target
`{a: 'x'}` (which lacks `b`), the first field already fails with a type
mismatch, `every` short-circuits, and the only warning emitted is the
mismatch for `a` — no missing-required warning for `b` appears. -/
theorem c6_counterexample :
    verify (JSVal.vobj none [("a", JSVal.vstr "x")])
      (Spec.nested [("a", Spec.prim "Number"), ("b", Spec.prim "String")])
      true =
      .ok (false, [Warning.typeMismatch "a" (some "Number") "String"]) ∧
    Warning.missingRequired "b" ∉
      [Warning.typeMismatch "a" (some "Number") "String"] := by
  constructor
  · rw [verify_eq]
    show verifyKeys _ _ _ ["a", "b"] = _
    rw [verifyKeys_cons, fieldRes_eval]
    rfl
  · decide

/-- C4 (amended): the round trip holds whenever the conforming object
literal itself supplies every format key: the synthesized constructor then
copies exactly the verified values onto the instance, and verification of
the instance succeeds with the same outcome.  (When an `Optional` key is
absent from the literal, the constructor stores `undefined` as an own
property, the key then counts as present, and the instance generally fails
to verify.) -/
theorem c4_roundTrip (n : String) (fs : List (String × Spec))
    (t : Option String) (ofl : List (String × JSVal)) (dt : Bool)
    (ws : List Warning)
    (hconf : verify (JSVal.vobj t ofl) (Spec.nested fs) dt = .ok (true, ws))
    (hhas : ∀ k ∈ fs.map Prod.fst, objHas ofl k = true) :
    classCtor n fs [JSVal.vobj t ofl] =
      .ok (JSVal.vobj (some n) (keyedFields (fs.map Prod.fst) ofl)) ∧
    verify (JSVal.vobj (some n) (keyedFields (fs.map Prod.fst) ofl))
      (Spec.nested fs) dt = .ok (true, ws) := by
  refine ⟨rfl, ?_⟩
  have hext : verify
      (JSVal.vobj (some n) (keyedFields (fs.map Prod.fst) ofl))
      (Spec.nested fs) dt =
      verify (JSVal.vobj t ofl) (Spec.nested fs) dt := by
    rw [verify_eq, verify_eq]
    apply verifyKeys_ext
    intro k hk
    have hk' : k ∈ fs.map Prod.fst := hk
    constructor
    · show Except.ok (objHas (keyedFields (fs.map Prod.fst) ofl) k) =
        Except.ok (objHas ofl k)
      rw [objHas_keyedFields ofl hk', hhas k hk']
    · intro _
      show objGet (keyedFields (fs.map Prod.fst) ofl) k = objGet ofl k
      exact objGet_keyedFields ofl hk'
  rw [hext, hconf]

theorem c4_witness :
    classCtor "P" [("name", Spec.prim "String")]
      [JSVal.vobj none [("name", JSVal.vstr "John")]] =
      .ok (JSVal.vobj (some "P")
        (keyedFields ["name"] [("name", JSVal.vstr "John")])) ∧
    verify (JSVal.vobj (some "P")
      (keyedFields ["name"] [("name", JSVal.vstr "John")]))
      (Spec.nested [("name", Spec.prim "String")]) true = .ok (true, []) := by
  have h := c4_roundTrip "P" [("name", Spec.prim "String")] none
    [("name", JSVal.vstr "John")] true []
    (by rw [verify_eq]
        show verifyKeys _ _ _ ["name"] = _
        rw [verifyKeys_cons, verifyKeys_nil, fieldRes_eval]
        rfl)
    (by intro k hk
        simp only [List.map_cons, List.map_nil, List.mem_singleton] at hk
        subst hk
        rfl)
  exact h

/-- C4 (refuted as stated): with the format
`{name: Optional(String)}` the empty literal verifies `true`, but the
instance built from it carries an own property `name` valued `undefined`,
so verifying the instance compares `String` against `Undefined` and
returns `false`: the round trip does not hold for every conforming
literal. -/
theorem c4_counterexample :
    verify (JSVal.vobj none [])
      (Spec.nested [("name", Spec.optional (Spec.prim "String"))]) true =
      .ok (true, []) ∧
    classCtor "Person" [("name", Spec.optional (Spec.prim "String"))]
      [JSVal.vobj none []] =
      .ok (JSVal.vobj (some "Person") [("name", JSVal.vundefined)]) ∧
    verify (JSVal.vobj (some "Person") [("name", JSVal.vundefined)])
      (Spec.nested [("name", Spec.optional (Spec.prim "String"))]) true =
      .ok (false, [Warning.typeMismatch "name" (some "String") "Undefined"]) := by
  refine ⟨?_, rfl, ?_⟩
  · rw [verify_eq]
    show verifyKeys _ _ _ ["name"] = _
    rw [verifyKeys_cons, verifyKeys_nil, fieldRes_eval]
    rfl
  · rw [verify_eq]
    show verifyKeys _ _ _ ["name"] = _
    rw [verifyKeys_cons, verifyKeys_nil, fieldRes_eval]
    rfl

/-- C7: the synthesized constructor never throws for the documented call
shapes — no arguments, a single object argument (with missing or extra
keys), or positional non-object arguments — and every format key not
supplied by the arguments becomes `undefined` on the instance.  (Passing
`null` as the first argument, not among the claimed shapes, does throw for
a non-empty format.) -/
theorem c7_ctor_total (n : String) (fmt : List (String × Spec)) :
    classCtor n fmt [] =
      .ok (JSVal.vobj (some n)
        ((fmt.map Prod.fst).map (fun k => (k, JSVal.vundefined)))) ∧
    (∀ t src rest,
      classCtor n fmt (JSVal.vobj t src :: rest) =
        .ok (JSVal.vobj (some n) (keyedFields (fmt.map Prod.fst) src)) ∧
      ∀ k ∈ fmt.map Prod.fst, objHas src k = false →
        objGet (keyedFields (fmt.map Prod.fst) src) k = .vundefined) ∧
    (∀ a rest, jsTypeof a ≠ "object" →
      classCtor n fmt (a :: rest) =
        .ok (JSVal.vobj (some n)
          (positionalFields (fmt.map Prod.fst) (a :: rest))) ∧
      ((fmt.map Prod.fst).Nodup →
        ∀ k ∈ (fmt.map Prod.fst).drop (a :: rest).length,
          objGet (positionalFields (fmt.map Prod.fst) (a :: rest)) k =
            .vundefined)) := by
  refine ⟨?_, ?_, ?_⟩
  · show Except.ok (JSVal.vobj (some n)
      (positionalFields (fmt.map Prod.fst) [])) = _
    rw [positionalFields_nil_args]
  · intro t src rest
    refine ⟨rfl, fun k hk hno => ?_⟩
    rw [objGet_keyedFields src hk]
    exact objHas_false_objGet hno
  · intro a rest ha
    constructor
    · cases a with
      | vnull => exact absurd rfl ha
      | vobj t fl => exact absurd rfl ha
      | varr es => exact absurd rfl ha
      | vstr s => rfl
      | vnum m => rfl
      | vbool b => rfl
      | vundefined => rfl
    · intro hnd k hk
      exact objGet_positional_drop hnd hk

theorem c7_witness :
    classCtor "P" [("a", Spec.prim "Number"), ("b", Spec.prim "String")] [] =
      .ok (JSVal.vobj (some "P") [("a", JSVal.vundefined), ("b", JSVal.vundefined)]) ∧
    classCtor "P" [("a", Spec.prim "Number"), ("b", Spec.prim "String")]
      [JSVal.vobj none [("a", JSVal.vnum 1)]] =
      .ok (JSVal.vobj (some "P")
        (keyedFields ["a", "b"] [("a", JSVal.vnum 1)])) ∧
    objGet (keyedFields ["a", "b"] [("a", JSVal.vnum 1)]) "b" = .vundefined ∧
    classCtor "P" [("a", Spec.prim "Number"), ("b", Spec.prim "String")]
      [JSVal.vnum 7] =
      .ok (JSVal.vobj (some "P")
        (positionalFields ["a", "b"] [JSVal.vnum 7])) ∧
    objGet (positionalFields ["a", "b"] [JSVal.vnum 7]) "b" = .vundefined := by
  have h := c7_ctor_total "P"
    [("a", Spec.prim "Number"), ("b", Spec.prim "String")]
  refine ⟨h.1, (h.2.1 none [("a", JSVal.vnum 1)] []).1,
    (h.2.1 none [("a", JSVal.vnum 1)] []).2 "b" (by simp) rfl,
    (h.2.2 (JSVal.vnum 7) [] (by simp [jsTypeof])).1,
    (h.2.2 (JSVal.vnum 7) [] (by simp [jsTypeof])).2 (by simp) "b" (by simp)⟩

end SimpleTypes
